import Mathlib

/-!
Verification of an Empirical Dynamic Modeling (EDM) engine.

The development shallowly embeds the Python sources of the repository:
time-delay embedding (Embed.py), command-line parameter validation
(ArgParse.py), the CCM neighbor search, distance matrix, library
subsampling and cross-map loop (CCM.py), and the Multiview combination
enumeration (Multiview.py).  Real values are modelled by rationals.
Functions of the EDM.py module, which the sources only import
(EmbedData, Distance, SimplexProjection, ComputeError), are either
modelled from the specification or carried as explicit function
parameters at the module boundary.
-/

namespace EDM

/-! ## Definitions -/

/-- Modelled from the spec: the backward time-delay embedding built by
EDM.EmbedData, which is imported by the sources but absent from them.
Spec section 3: row i, dim j in [1,E] holds x[i - (j-1)*tau]; this matches
the construction of TestEmbed in src/Embed.py, where column j of the full
matrix holds the data shifted down by (j-1)*tau rows with zeros above.
Row i of the full matrix: time value, then the E lagged coordinates. -/
def embedRowFull (t x : List ℚ) (tau E i : ℕ) : List ℚ :=
  t.getD i 0 ::
    (List.range E).map (fun j => if j * tau ≤ i then x.getD (i - j * tau) 0 else 0)

/-- The full (undeleted) phase-space matrix: one row per input observation. -/
def embedMatrixFull (t x : List ℚ) (E tau : ℕ) : List (List ℚ) :=
  (List.range x.length).map (fun i => embedRowFull t x tau E i)

/-- Backward embedding: src/Embed.py TestEmbed deletes the leading
(E-1)*tau rows of the full matrix (`np.delete(m, np.s_[0:del_row:1], 0)`).
The numpy slice clamps to the row count, so the deletion is a `List.drop`. -/
def embedBackward (t x : List ℚ) (E tau : ℕ) : List (List ℚ) :=
  (embedMatrixFull t x E tau).drop ((E - 1) * tau)

/-- src/ArgParse.py lines 183-189: for a method whose lower-cased name
contains "smap", the parser raises a RuntimeError exactly when the
explicit neighbor count satisfies `k_NN > 0` and `k_NN <= E`.
Returns `true` when the parser raises. -/
def smapKnnRaises (k_NN E : ℤ) : Bool :=
  if k_NN > 0 then (if k_NN ≤ E then true else false) else false

/-- The 1e30 distance sentinel used by src/CCM.py GetDistances to mark
unusable (diagonal / uninitialized) entries. -/
def sentinel : ℚ := 1000000000000000000000000000000

/-- The threshold of the Debug-mode check in src/CCM.py GetNeighbors:
`amax(k_NN_distances) > 1E29` raises a RuntimeError. -/
def debugThreshold : ℚ := 100000000000000000000000000000

/-- The two RuntimeErrors that src/CCM.py GetNeighbors can raise. -/
inductive NbrErr : Type
  | libraryTooSmall : NbrErr
  | degenerateNeighbors : NbrErr
deriving DecidableEq

/-- Lexicographic order on (distance, library-local index) pairs: the
order `sorted` uses on the tuples built by `zip` in GetNeighbors. -/
def pairLe (a b : ℚ × ℕ) : Prop := a.1 < b.1 ∨ (a.1 = b.1 ∧ a.2 ≤ b.2)

instance : DecidableRel pairLe := fun a b => by
  unfold pairLe; exact inferInstance

instance : IsTotal (ℚ × ℕ) pairLe :=
  ⟨fun a b => by
    rcases lt_trichotomy a.1 b.1 with h | h | h
    · exact Or.inl (Or.inl h)
    · rcases Nat.le_total a.2 b.2 with h2 | h2
      · exact Or.inl (Or.inr ⟨h, h2⟩)
      · exact Or.inr (Or.inr ⟨h.symm, h2⟩)
    · exact Or.inr (Or.inl h)⟩

instance : IsTrans (ℚ × ℕ) pairLe :=
  ⟨fun a b c hab hbc => by
    rcases hab with h1 | ⟨e1, l1⟩ <;> rcases hbc with h2 | ⟨e2, l2⟩
    · exact Or.inl (h1.trans h2)
    · exact Or.inl (e2 ▸ h1)
    · exact Or.inl (e1 ▸ h2)
    · exact Or.inr ⟨e1.trans e2, l1.trans l2⟩⟩

/-- src/CCM.py GetNeighbors, per prediction row `row_i`: the list of
(distance, library-local index) tuples `zip(Distances[row_i, lib_i], col_i)`
with `col_i = arange(len(lib_i))`. -/
def rowPairs (Dists : List (List ℚ)) (lib_i : List ℕ) (row_i : ℕ) : List (ℚ × ℕ) :=
  List.zip (lib_i.map (fun c => (Dists.getD row_i []).getD c 0))
    (List.range lib_i.length)

/-- `sorted(zip(Distances[row_i, lib_i], col_i))`: Python sorts the tuples
in ascending lexicographic order.  The index components are pairwise
distinct, so the sorted permutation is unique and an insertion sort under
the lexicographic order `pairLe` produces it. -/
def sortedRowPairs (Dists : List (List ℚ)) (lib_i : List ℕ) (row_i : ℕ) : List (ℚ × ℕ) :=
  List.insertionSort pairLe (rowPairs Dists lib_i row_i)

/-- `[ x[1] for x in D_row_i ][ 0:k_NN ]`: the first k_NN sorted
library-local indices for prediction row `row_i`. -/
def kNbr (Dists : List (List ℚ)) (lib_i : List ℕ) (k_NN row_i : ℕ) : List ℕ :=
  ((sortedRowPairs Dists lib_i row_i).map Prod.snd).take k_NN

/-- `[ x[0] for x in D_row_i ][ 0:k_NN ]`: the first k_NN sorted
distances for prediction row `row_i`. -/
def kDist (Dists : List (List ℚ)) (lib_i : List ℕ) (k_NN row_i : ℕ) : List ℚ :=
  ((sortedRowPairs Dists lib_i row_i).map Prod.fst).take k_NN

/-- One iteration of the GetNeighbors loop: take the first k_NN sorted
distances and indices; under Debug, raise when the selected distances
exceed 1e29 (`amax(k_NN_distances) > 1E29`, written here as an existence
test, equivalent for the nonempty selections that arise), or when the
selected indices are degenerate (`len != len(unique)`, i.e. not Nodup). -/
def getNeighborsRow (Dists : List (List ℚ)) (lib_i : List ℕ) (k_NN : ℕ)
    (debug : Bool) (row_i : ℕ) : Except NbrErr (List ℕ × List ℚ) :=
  if debug then
    if (kDist Dists lib_i k_NN row_i).any (fun d => decide (debugThreshold < d)) then
      .error .libraryTooSmall
    else if (kNbr Dists lib_i k_NN row_i).Nodup then
      .ok (kNbr Dists lib_i k_NN row_i, kDist Dists lib_i k_NN row_i)
    else .error .degenerateNeighbors
  else .ok (kNbr Dists lib_i k_NN row_i, kDist Dists lib_i k_NN row_i)

/-- Run an Except-valued function over a list, stopping at the first
error: the loop structure of GetNeighbors (and of any Python loop whose
body may raise). -/
def exceptMapList {ε α β : Type} (f : α → Except ε β) : List α → Except ε (List β)
  | [] => .ok []
  | a :: as =>
    match f a with
    | .error e => .error e
    | .ok b =>
      match exceptMapList f as with
      | .error e => .error e
      | .ok bs => .ok (b :: bs)

/-- src/CCM.py GetNeighbors: for each prediction vector (each row listed in
`lib_i`) collect the k_NN nearest library-local indices and distances. -/
def getNeighbors (Dists : List (List ℚ)) (lib_i : List ℕ) (k_NN : ℕ)
    (debug : Bool) : Except NbrErr (List (List ℕ) × List (List ℚ)) :=
  match exceptMapList (getNeighborsRow Dists lib_i k_NN debug) lib_i with
  | .error e => .error e
  | .ok rows => .ok (rows.map Prod.fst, rows.map Prod.snd)

/-- Number of usable candidate neighbors of a prediction row: entries of
`Distances[row_i, lib_i]` at or below the 1e29 debug threshold (true
distances, as opposed to the 1e30 sentinel). -/
def usableCount (Dists : List (List ℚ)) (lib_i : List ℕ) (row_i : ℕ) : ℕ :=
  ((rowPairs Dists lib_i row_i).map Prod.fst).countP
    (fun d => decide (d ≤ debugThreshold))

/-- The library-local indices that a returned (neighbors, distances) row
reports at distance exactly `d`. -/
def reportedTied (nb : List ℕ) (ds : List ℚ) (d : ℚ) : List ℕ :=
  ((nb.zip ds).filter (fun p => decide (p.2 = d))).map Prod.fst

/-- All library-local indices whose candidate distance to the prediction
row is exactly `d`, in index order. -/
def allTiedIndices (Dists : List (List ℚ)) (lib_i : List ℕ) (row_i : ℕ)
    (d : ℚ) : List ℕ :=
  ((rowPairs Dists lib_i row_i).filter (fun p => decide (p.1 = d))).map Prod.snd

/-- src/CCM.py CrossMap lines 191-207: contiguous library index selection
(randomLib false) for subsample n at library size L over N embedding rows.
`lib_size >= N_row` clamps to arange(0, N); a block that stays inside
takes arange(n, n+L); otherwise arange(n, N) is concatenated with the
wrapped block arange(0, min(L - (N - n), N)). -/
def libContig (N L n : ℕ) : List ℕ :=
  if N ≤ L then List.range N
  else if n + L < N then List.range' n L
  else List.range' n (N - n) ++ List.range (min (n + L - N) N)

/-- The contiguous selection rule exactly as the claim words it: block
[n, n+L) when it fits before N, else [n, N) followed by the wrapped block
[0, L - (N - n)) with no clamp; [0, N) when L ≥ N.  Stated from the
specification for comparison with `libContig`. -/
def libContigSpec (N L n : ℕ) : List ℕ :=
  if N ≤ L then List.range N
  else if n + L ≤ N then List.range' n L
  else List.range' n (N - n) ++ List.range (n + L - N)

/-- The amended selection rule: as `libContigSpec` but with the wrapped
block clamped to the data length, [0, min(L - (N - n), N)). -/
def libContigSpecClamped (N L n : ℕ) : List ℕ :=
  if N ≤ L then List.range N
  else if n + L ≤ N then List.range' n L
  else List.range' n (N - n) ++ List.range (min (n + L - N) N)

/-- The four error statistics (rho, r, RMSE, MAE) recorded per subsample:
one row of the prediction_rho matrix in src/CCM.py CrossMap. -/
structure Stats : Type where
  rho : ℚ
  r : ℚ
  rmse : ℚ
  mae : ℚ
deriving DecidableEq

/-- np.mean of a rational list (the mean of an empty list is 0 here;
numpy would warn and produce NaN, which no claim exercises: maxSamples is
at least 1 in every run the claims quantify over). -/
def listMean (l : List ℚ) : ℚ := l.sum / l.length

/-- Column-wise mean of the prediction_rho matrix: CrossMap lines 224-227
take np.mean of each of the four statistic columns separately. -/
def statsMean (l : List Stats) : Stats :=
  ⟨listMean (l.map Stats.rho), listMean (l.map Stats.r),
    listMean (l.map Stats.rmse), listMean (l.map Stats.mae)⟩

/-- Python `range(a, b, s)` for a positive step: a, a+s, a+2s, ... < b.
(Python raises ValueError on step 0; here s = 0 gives the empty list.) -/
def pyRange (a b s : ℕ) : List ℕ :=
  (List.range ((b - a + s - 1) / s)).map (fun i => a + i * s)

/-- Modelled from the spec: the boundary to the EDM.py module, which the
sources import but which is absent from src/.  `dist` is the Euclidean
distance of spec section 4.2 (on the E embedding columns), `simplexProj`
the Simplex projector of spec section 4.5 (library rows, library targets,
neighbor indices, neighbor distances, returning predictions), and
`computeErr` the error statistics of spec section 4.1.  The CCM claims
proved below hold for every choice of these three functions, so they are
carried as parameters rather than re-derived from the spec's formulas. -/
structure EDMCore : Type where
  dist : List ℚ → List ℚ → ℚ
  simplexProj : List (List ℚ) → List ℚ → List (List ℕ) → List (List ℚ) → List ℚ
  computeErr : List ℚ → List ℚ → Stats

/-- src/CCM.py GetDistances: the N×N distance matrix over the embedding
rows, initialized to the 1e30 sentinel; the diagonal is skipped, and the
entry (i, j) with i ≠ j is the distance between the E-dimensional vectors
of rows i and j (columns 1..E; the time column 0 is excluded).  The
source fills (i, j) and (j, i) together inside one loop, and the later
outer iteration max(i,j) overwrites both, so the final entry for i ≠ j is
the distance evaluated with the smaller-index row as first argument and
the larger-index row (the `y` of that outer iteration) as second; for the
Euclidean distance of the spec both orders agree. -/
def getDistances (dist : List ℚ → List ℚ → ℚ) (M : List (List ℚ)) (E : ℕ) :
    List (List ℚ) :=
  (List.range M.length).map (fun row =>
    (List.range M.length).map (fun col =>
      if row = col then sentinel
      else dist (((M.getD (min row col) []).drop 1).take E)
        (((M.getD (max row col) []).drop 1).take E)))

/-- CrossMap lines 152-154: `if args.k_NN < 0: args.k_NN = E + 1`. -/
def effectiveK (k_NN : ℤ) (E : ℕ) : ℕ :=
  if k_NN < 0 then E + 1 else k_NN.toNat

/-- One subsample's library index list together with the RNG cursor after
drawing it.  With randomLib the source draws `randint(low=0, high=N,
size=L)` from the global numpy RNG, modelled as L consecutive values of
the stream `rand` reduced mod N (values in [0, N)); otherwise the
contiguous selection `libContig`, which consumes no draws. -/
def sampleLib (randomLib : Bool) (rand : ℕ → ℕ) (N L n c : ℕ) : List ℕ × ℕ :=
  if randomLib then ((List.range L).map (fun j => rand (c + j) % N), c + L)
  else (libContig N L n, c)

/-- CrossMap lines 212-222: one subsample evaluation.  Neighbors come
from the src GetNeighbors on the precomputed distance matrix restricted
to lib_i; predictions from SimplexProjection on libraryMatrix[lib_i] and
target[lib_i]; statistics from ComputeError on target[lib_i] and the
predictions. -/
def sampleStats (core : EDMCore) (Dists M : List (List ℚ)) (y : List ℚ)
    (k : ℕ) (debug : Bool) (lib_i : List ℕ) : Except NbrErr Stats :=
  match getNeighbors Dists lib_i k debug with
  | .error e => .error e
  | .ok (nbrs, dsts) =>
      .ok (core.computeErr (lib_i.map (fun i => y.getD i 0))
        (core.simplexProj (lib_i.map (fun i => M.getD i []))
          (lib_i.map (fun i => y.getD i 0)) nbrs dsts))

/-- The fixed data of one CrossMap invocation. -/
structure CCMEnv : Type where
  core : EDMCore
  M : List (List ℚ)
  y : List ℚ
  Dists : List (List ℚ)
  k : ℕ
  debug : Bool
  randomLib : Bool
  rand : ℕ → ℕ

/-- Number of embedding rows, `N_row = nRow(libraryMatrix)`. -/
def CCMEnv.N (env : CCMEnv) : ℕ := env.M.length

/-- The subsample loop at one library size L: iterate the listed sample
numbers in order, threading the RNG cursor, collecting one Stats row per
sample (the prediction_rho matrix). -/
def runSamples (env : CCMEnv) (L : ℕ) : List ℕ → ℕ → Except NbrErr (List Stats × ℕ)
  | [], c => .ok ([], c)
  | n :: ns, c =>
    match sampleStats env.core env.Dists env.M env.y env.k env.debug
        (sampleLib env.randomLib env.rand env.N L n c).1 with
    | .error e => .error e
    | .ok st =>
      match runSamples env L ns (sampleLib env.randomLib env.rand env.N L n c).2 with
      | .error e => .error e
      | .ok (sts, c2) => .ok (st :: sts, c2)

/-- The library-size loop: for each size, run maxSamples subsamples and
record the column-wise mean of their statistics. -/
def runSizes (env : CCMEnv) (maxSamples : ℕ) :
    List ℕ → ℕ → Except NbrErr (List (ℕ × Stats) × ℕ)
  | [], c => .ok ([], c)
  | L :: Ls, c =>
    match runSamples env L (List.range maxSamples) c with
    | .error e => .error e
    | .ok (sts, c1) =>
      match runSizes env maxSamples Ls c1 with
      | .error e => .error e
      | .ok (rest, c2) => .ok ((L, statsMean sts) :: rest, c2)

/-- src/CCM.py CrossMap: embed the driver column against the target
(`EmbedData(args)`, the EDM.py boundary, carried as `embedFn`), apply the
k_NN default, build the full distance matrix, then loop the library sizes
`range(start, stop+1, increment)` with `maxSamples = subsample` when
randomLib else `stop`, and record per size the mean statistics. -/
def crossMap (core : EDMCore) (embedFn : ℕ → ℕ → List (List ℚ) × List ℚ)
    (col targ E : ℕ) (k_NN : ℤ) (start stop step subsample : ℕ)
    (randomLib debug : Bool) (rand : ℕ → ℕ) : Except NbrErr (List (ℕ × Stats)) :=
  match runSizes
      ⟨core, (embedFn col targ).1, (embedFn col targ).2,
        getDistances core.dist (embedFn col targ).1 E,
        effectiveK k_NN E, debug, randomLib, rand⟩
      (if randomLib then subsample else stop)
      (pyRange start (stop + 1) step) 0 with
  | .error e => .error e
  | .ok (res, _) => .ok res

/-- src/CCM.py CCM lines 59-89: the two cross-map directions are two
invocations of the same CrossMap with the column and target exchanged.
The worker processes fork after `seed(...)`, so both invocations see the
same RNG stream from cursor 0.  The results are tagged with their
(column, target) identity and the "columns to target" result is put
first, mirroring the string-match extraction of lines 84-89. -/
def ccm (core : EDMCore) (embedFn : ℕ → ℕ → List (List ℚ) × List ℚ)
    (colX targY E : ℕ) (k_NN : ℤ) (start stop step subsample : ℕ)
    (randomLib debug : Bool) (rand : ℕ → ℕ) :
    Except NbrErr (List (ℕ × Stats)) × Except NbrErr (List (ℕ × Stats)) :=
  if ((colX, targY),
      crossMap core embedFn colX targY E k_NN start stop step subsample
        randomLib debug rand).1 = (colX, targY) then
    (crossMap core embedFn colX targY E k_NN start stop step subsample
        randomLib debug rand,
      crossMap core embedFn targY colX E k_NN start stop step subsample
        randomLib debug rand)
  else
    (crossMap core embedFn targY colX E k_NN start stop step subsample
        randomLib debug rand,
      crossMap core embedFn colX targY E k_NN start stop step subsample
        randomLib debug rand)

/-- The successful (non-Debug) value of GetNeighbors: one neighbor-index
row and one distance row per entry of lib_i. -/
def getNeighborsPure (Dists : List (List ℚ)) (lib_i : List ℕ) (k : ℕ) :
    List (List ℕ) × List (List ℚ) :=
  (lib_i.map (fun r => kNbr Dists lib_i k r),
    lib_i.map (fun r => kDist Dists lib_i k r))

/-- The statistics of one subsample when no check raises. -/
def pureSampleStat (core : EDMCore) (Dists M : List (List ℚ)) (y : List ℚ)
    (k : ℕ) (lib_i : List ℕ) : Stats :=
  core.computeErr (lib_i.map (fun i => y.getD i 0))
    (core.simplexProj (lib_i.map (fun i => M.getD i []))
      (lib_i.map (fun i => y.getD i 0))
      (getNeighborsPure Dists lib_i k).1 (getNeighborsPure Dists lib_i k).2)

/-- The library selection of subsample n at size L when the block of
samples started at RNG cursor c0: random samples have consumed n*L draws
by then; the contiguous selection ignores the cursor. -/
def nthSampleLib (randomLib : Bool) (rand : ℕ → ℕ) (N L c0 n : ℕ) : List ℕ :=
  (sampleLib randomLib rand N L n (c0 + n * L)).1

/-- A concrete EDM.py boundary instance used to evaluate the CCM theorems
on explicit inputs. -/
def witCore : EDMCore :=
  ⟨fun _ _ => 0, fun _ _ _ _ => [], fun _ _ => ⟨0, 0, 0, 0⟩⟩

/-- A concrete embedding boundary (two rows) for the same purpose. -/
def witEmbed : ℕ → ℕ → List (List ℚ) × List ℚ :=
  fun _ _ => ([[0, 0], [0, 1]], [0, 1])

/-- itertools.combinations: all k-element subsequences of a list, in the
lexicographic order itertools produces (those containing the head first). -/
def combinations : ℕ → List ℕ → List (List ℕ)
  | 0, _ => [[]]
  | _ + 1, [] => []
  | k + 1, x :: xs =>
    ((combinations k xs).map (fun c => x :: c)) ++ combinations (k + 1) xs

/-- src/Multiview.py line 62: all E-element combinations of the embedding
column indices 1 .. nVar*E (column 0 is time and is excluded). -/
def multiviewCombos (nVar E : ℕ) : List (List ℕ) :=
  combinations E (List.range' 1 (nVar * E))

/-- src/Multiview.py lines 69-77: keep a combination exactly when some
index x in it satisfies x % E == 1 (an unlagged coordinate); the source
collects the positions of such combinations in combo_i and re-indexes,
which amounts to this filter. -/
def retainedCombos (nVar E : ℕ) : List (List ℕ) :=
  (multiviewCombos nVar E).filter (fun c => c.any (fun x => decide (x % E = 1)))

/-! ## Theorems -/

/-- Auxiliary: the full phase-space matrix has one row per observation. -/
theorem embedMatrixFull_length (t x : List ℚ) (E tau : ℕ) :
    (embedMatrixFull t x E tau).length = x.length := by
  simp [embedMatrixFull]

/-- C1: for an input series of length L, embedding dimension E ≥ 1 and lag
tau ≥ 1, the backward embedding has exactly L - (E-1)*tau rows (natural
subtraction), and the output is precisely what remains of the full
phase-space matrix after its (E-1)*tau leading rows are deleted: the full
matrix is the deleted prefix followed by the returned rows. -/
theorem embed_row_count (t x : List ℚ) (E tau : ℕ) (hE : 1 ≤ E) (htau : 1 ≤ tau) :
    (embedBackward t x E tau).length = x.length - (E - 1) * tau ∧
    embedMatrixFull t x E tau =
      (embedMatrixFull t x E tau).take ((E - 1) * tau) ++ embedBackward t x E tau := by
  constructor
  · simp [embedBackward, embedMatrixFull]
  · rw [embedBackward, List.take_append_drop]

/-- Witness for C1 at E = 3, tau = 2 on a series of length 5:
5 - (3-1)*2 = 1 row remains. -/
theorem embed_row_count_witness :
    (1 ≤ 3 ∧ 1 ≤ 2) ∧
    ((embedBackward [1,2,3,4,5] [10,20,30,40,50] 3 2).length = 5 - (3 - 1) * 2 ∧
      embedMatrixFull [1,2,3,4,5] [10,20,30,40,50] 3 2 =
        (embedMatrixFull [1,2,3,4,5] [10,20,30,40,50] 3 2).take ((3 - 1) * 2) ++
          embedBackward [1,2,3,4,5] [10,20,30,40,50] 3 2) :=
  ⟨⟨by decide, by decide⟩, embed_row_count [1,2,3,4,5] [10,20,30,40,50] 3 2
    (by decide) (by decide)⟩

/-- C2 (code bug evidence): the parser accepts an explicit k_NN = E + 1 for
S-Map for every E, although the comment above the check ("require k_NN >
E + 1") and the specification demand its rejection; only k_NN ≤ E is
rejected.  The second conjunct evaluates the concrete failing input
E = 3, k_NN = 4 (accepted), against E = 3, k_NN = 3 (rejected). -/
theorem smapKnn_accepts_explicit_E_plus_one :
    (∀ E : ℤ, smapKnnRaises (E + 1) E = false) ∧
    smapKnnRaises 4 3 = false ∧ smapKnnRaises 3 3 = true := by
  refine ⟨fun E => ?_, by decide, by decide⟩
  simp only [smapKnnRaises]
  split
  · split
    · omega
    · rfl
  · rfl

theorem rowPairs_length (Dists : List (List ℚ)) (lib_i : List ℕ) (row_i : ℕ) :
    (rowPairs Dists lib_i row_i).length = lib_i.length := by
  simp [rowPairs]

theorem rowPairs_map_snd (Dists : List (List ℚ)) (lib_i : List ℕ) (row_i : ℕ) :
    (rowPairs Dists lib_i row_i).map Prod.snd = List.range lib_i.length := by
  unfold rowPairs
  exact List.map_snd_zip _ _ (by simp)

theorem rowPairs_pairwise_snd (Dists : List (List ℚ)) (lib_i : List ℕ) (row_i : ℕ) :
    List.Pairwise (fun a b : ℚ × ℕ => a.2 < b.2) (rowPairs Dists lib_i row_i) := by
  have h : List.Pairwise (· < ·) ((rowPairs Dists lib_i row_i).map Prod.snd) := by
    rw [rowPairs_map_snd]; exact List.pairwise_lt_range _
  exact List.pairwise_map.mp h

theorem rowPairs_nodup (Dists : List (List ℚ)) (lib_i : List ℕ) (row_i : ℕ) :
    (rowPairs Dists lib_i row_i).Nodup :=
  List.Nodup.of_map Prod.snd
    (by rw [rowPairs_map_snd]; exact List.nodup_range _)

theorem sortedRowPairs_perm (Dists : List (List ℚ)) (lib_i : List ℕ) (row_i : ℕ) :
    (sortedRowPairs Dists lib_i row_i).Perm (rowPairs Dists lib_i row_i) :=
  List.perm_insertionSort _ _

theorem sortedRowPairs_sorted (Dists : List (List ℚ)) (lib_i : List ℕ) (row_i : ℕ) :
    List.Sorted pairLe (sortedRowPairs Dists lib_i row_i) :=
  List.sorted_insertionSort _ _

theorem sortedRowPairs_snd_perm (Dists : List (List ℚ)) (lib_i : List ℕ) (row_i : ℕ) :
    ((sortedRowPairs Dists lib_i row_i).map Prod.snd).Perm (List.range lib_i.length) := by
  have h := (sortedRowPairs_perm Dists lib_i row_i).map Prod.snd
  rwa [rowPairs_map_snd] at h

theorem kNbr_nodup (Dists : List (List ℚ)) (lib_i : List ℕ) (k row_i : ℕ) :
    (kNbr Dists lib_i k row_i).Nodup :=
  List.Nodup.sublist (List.take_sublist _ _)
    ((sortedRowPairs_snd_perm Dists lib_i row_i).nodup_iff.mpr (List.nodup_range _))

theorem kNbr_mem_lt (Dists : List (List ℚ)) (lib_i : List ℕ) (k row_i i : ℕ)
    (hi : i ∈ kNbr Dists lib_i k row_i) : i < lib_i.length := by
  have h1 : i ∈ (sortedRowPairs Dists lib_i row_i).map Prod.snd :=
    List.Sublist.mem hi (List.take_sublist _ _)
  have h2 : i ∈ List.range lib_i.length :=
    (sortedRowPairs_snd_perm Dists lib_i row_i).mem_iff.mp h1
  exact List.mem_range.mp h2

theorem getNeighborsRow_ok (Dists : List (List ℚ)) (lib_i : List ℕ)
    (k : ℕ) (dbg : Bool) (row_i : ℕ) (nb : List ℕ) (ds : List ℚ)
    (h : getNeighborsRow Dists lib_i k dbg row_i = .ok (nb, ds)) :
    nb = kNbr Dists lib_i k row_i ∧ ds = kDist Dists lib_i k row_i := by
  unfold getNeighborsRow at h
  cases dbg with
  | false =>
    simp only [Bool.false_eq_true, if_false] at h
    injection h with h
    exact ⟨(congrArg Prod.fst h).symm, (congrArg Prod.snd h).symm⟩
  | true =>
    simp only [if_true] at h
    split at h
    · exact absurd h (by simp)
    · split at h
      · injection h with h
        exact ⟨(congrArg Prod.fst h).symm, (congrArg Prod.snd h).symm⟩
      · exact absurd h (by simp)

theorem getNeighborsRow_error (Dists : List (List ℚ)) (lib_i : List ℕ)
    (k : ℕ) (dbg : Bool) (row_i : ℕ) (e : NbrErr)
    (h : getNeighborsRow Dists lib_i k dbg row_i = .error e) :
    e = NbrErr.libraryTooSmall := by
  unfold getNeighborsRow at h
  cases dbg with
  | false => exact absurd h (by simp)
  | true =>
    simp only [if_true] at h
    split at h
    · injection h with h; exact h.symm
    · split at h
      · exact absurd h (by simp)
      · exact absurd (kNbr_nodup Dists lib_i k row_i) (by assumption)

theorem getNeighborsRow_false_ok (Dists : List (List ℚ)) (lib_i : List ℕ)
    (k row_i : ℕ) :
    getNeighborsRow Dists lib_i k false row_i =
      .ok (kNbr Dists lib_i k row_i, kDist Dists lib_i k row_i) := rfl

theorem exceptMapList_ok_of {ε α β : Type} (f : α → Except ε β) (g : α → β)
    (l : List α) (h : ∀ a ∈ l, f a = .ok (g a)) :
    exceptMapList f l = .ok (l.map g) := by
  induction l with
  | nil => rfl
  | cons a as ih =>
    simp only [exceptMapList, h a (List.mem_cons_self a as),
      ih (fun b hb => h b (List.mem_cons_of_mem a hb)), List.map_cons]

theorem exceptMapList_error_of {ε α β : Type} (f : α → Except ε β) (e : ε)
    (l : List α) (hsome : ∃ a ∈ l, f a = .error e)
    (huniq : ∀ a ∈ l, ∀ e', f a = .error e' → e' = e) :
    exceptMapList f l = .error e := by
  induction l with
  | nil => obtain ⟨a, ha, _⟩ := hsome; exact absurd ha (List.not_mem_nil a)
  | cons a as ih =>
    cases hfa : f a with
    | error e' =>
      have he : e' = e := huniq a (List.mem_cons_self a as) e' hfa
      subst he
      simp [exceptMapList, hfa]
    | ok b =>
      have hsome' : ∃ x ∈ as, f x = .error e := by
        obtain ⟨x, hx, hfx⟩ := hsome
        rcases List.mem_cons.mp hx with rfl | hx'
        · rw [hfa] at hfx; exact absurd hfx (by simp)
        · exact ⟨x, hx', hfx⟩
      have ih' := ih hsome' (fun x hx => huniq x (List.mem_cons_of_mem a hx))
      simp [exceptMapList, hfa, ih']

theorem exceptMapList_ok_mem {ε α β : Type} (f : α → Except ε β)
    (l : List α) (bs : List β) (h : exceptMapList f l = .ok bs)
    (b : β) (hb : b ∈ bs) : ∃ a ∈ l, f a = .ok b := by
  induction l generalizing bs with
  | nil =>
    unfold exceptMapList at h
    injection h with h
    subst h
    exact absurd hb (List.not_mem_nil b)
  | cons a as ih =>
    unfold exceptMapList at h
    cases hfa : f a with
    | error e => rw [hfa] at h; exact absurd h (by simp)
    | ok b0 =>
      rw [hfa] at h
      cases hrest : exceptMapList f as with
      | error e => rw [hrest] at h; exact absurd h (by simp)
      | ok bs0 =>
        rw [hrest] at h
        injection h with h
        subst h
        rcases List.mem_cons.mp hb with rfl | hb'
        · exact ⟨a, List.mem_cons_self a as, hfa⟩
        · obtain ⟨x, hx, hfx⟩ := ih bs0 hrest hb'
          exact ⟨x, List.mem_cons_of_mem a hx, hfx⟩

theorem exceptMapList_ok_length {ε α β : Type} (f : α → Except ε β)
    (l : List α) (bs : List β) (h : exceptMapList f l = .ok bs) :
    bs.length = l.length := by
  induction l generalizing bs with
  | nil =>
    unfold exceptMapList at h
    injection h with h
    subst h; rfl
  | cons a as ih =>
    unfold exceptMapList at h
    cases hfa : f a with
    | error e => rw [hfa] at h; exact absurd h (by simp)
    | ok b0 =>
      rw [hfa] at h
      cases hrest : exceptMapList f as with
      | error e => rw [hrest] at h; exact absurd h (by simp)
      | ok bs0 =>
        rw [hrest] at h
        injection h with h
        subst h
        simp [ih bs0 hrest]

theorem exceptMapList_ok_getD {ε α β : Type} (f : α → Except ε β)
    (l : List α) (bs : List β) (h : exceptMapList f l = .ok bs)
    (j : ℕ) (hj : j < l.length) (a₀ : α) (b₀ : β) :
    f (l.getD j a₀) = .ok (bs.getD j b₀) := by
  induction l generalizing bs j with
  | nil => exact absurd hj (by simp)
  | cons a as ih =>
    unfold exceptMapList at h
    cases hfa : f a with
    | error e => rw [hfa] at h; exact absurd h (by simp)
    | ok b0 =>
      rw [hfa] at h
      cases hrest : exceptMapList f as with
      | error e => rw [hrest] at h; exact absurd h (by simp)
      | ok bs0 =>
        rw [hrest] at h
        injection h with h
        subst h
        cases j with
        | zero => simpa using hfa
        | succ j' =>
          have hj' : j' < as.length := by simpa using hj
          simpa using ih bs0 hrest j' hj'

theorem getNeighbors_ok_rows (Dists : List (List ℚ)) (lib_i : List ℕ)
    (k : ℕ) (dbg : Bool) (nbrs : List (List ℕ)) (dsts : List (List ℚ))
    (h : getNeighbors Dists lib_i k dbg = .ok (nbrs, dsts)) :
    ∃ rows, exceptMapList (getNeighborsRow Dists lib_i k dbg) lib_i = .ok rows ∧
      nbrs = rows.map Prod.fst ∧ dsts = rows.map Prod.snd := by
  unfold getNeighbors at h
  cases heq : exceptMapList (getNeighborsRow Dists lib_i k dbg) lib_i with
  | error e => rw [heq] at h; exact absurd h (by simp)
  | ok rows =>
    rw [heq] at h
    injection h with h
    exact ⟨rows, rfl, (congrArg Prod.fst h).symm, (congrArg Prod.snd h).symm⟩

/-- C5: every neighbor index returned by the CCM neighbor search is a
library-local index: it lies in 0 .. |lib_i| - 1, i.e. it refers to a
position in the selected library index list, not to a row of the
original library matrix. -/
theorem getNeighbors_indices_local (Dists : List (List ℚ)) (lib_i : List ℕ)
    (k : ℕ) (dbg : Bool) (nbrs : List (List ℕ)) (dsts : List (List ℚ))
    (h : getNeighbors Dists lib_i k dbg = .ok (nbrs, dsts)) :
    ∀ row ∈ nbrs, ∀ i ∈ row, i < lib_i.length := by
  obtain ⟨rows, hrows, hnb, _⟩ := getNeighbors_ok_rows Dists lib_i k dbg nbrs dsts h
  intro row hrow i hi
  subst hnb
  obtain ⟨p, hp, hfst⟩ := List.mem_map.mp hrow
  obtain ⟨a, _, hfa⟩ := exceptMapList_ok_mem _ _ _ hrows p hp
  obtain ⟨h1, _⟩ := getNeighborsRow_ok Dists lib_i k dbg a p.1 p.2 (by rw [hfa])
  rw [hfst] at h1
  exact kNbr_mem_lt Dists lib_i k a i (h1 ▸ hi)

/-- Witness for C5: a concrete 2-row library; the returned index 1 is
below the library length 2. -/
theorem getNeighbors_indices_local_witness :
    getNeighbors [[sentinel, 1], [1, sentinel]] [0, 1] 1 false =
      .ok ([[1], [0]], [[1], [1]]) ∧ 1 < 2 :=
  ⟨rfl, getNeighbors_indices_local [[sentinel, 1], [1, sentinel]] [0, 1] 1 false
    [[1], [0]] [[1], [1]] rfl [1] (by simp) 1 (by simp)⟩

theorem kDist_any_big (Dists : List (List ℚ)) (lib_i : List ℕ) (k row_i : ℕ)
    (hk : k ≤ lib_i.length) (hu : usableCount Dists lib_i row_i < k) :
    (kDist Dists lib_i k row_i).any (fun d => decide (debugThreshold < d)) = true := by
  by_contra hany
  have hall : ∀ d ∈ kDist Dists lib_i k row_i, d ≤ debugThreshold := by
    intro d hd
    by_contra hgt
    exact hany (List.any_eq_true.mpr ⟨d, hd, by simpa using not_le.mp hgt⟩)
  have hslen : (sortedRowPairs Dists lib_i row_i).length = lib_i.length := by
    rw [(sortedRowPairs_perm Dists lib_i row_i).length_eq, rowPairs_length]
  have hlen : (kDist Dists lib_i k row_i).length = k := by
    unfold kDist
    rw [List.length_take, List.length_map, hslen]
    omega
  have hcnt : (kDist Dists lib_i k row_i).countP (fun d => decide (d ≤ debugThreshold)) = k := by
    rw [List.countP_eq_length.mpr (fun a ha => by simpa using hall a ha), hlen]
  have hsplit :
      ((sortedRowPairs Dists lib_i row_i).map Prod.fst).countP
        (fun d => decide (d ≤ debugThreshold)) =
      (kDist Dists lib_i k row_i).countP (fun d => decide (d ≤ debugThreshold)) +
      (((sortedRowPairs Dists lib_i row_i).map Prod.fst).drop k).countP
        (fun d => decide (d ≤ debugThreshold)) := by
    conv_lhs => rw [← List.take_append_drop k ((sortedRowPairs Dists lib_i row_i).map Prod.fst)]
    rw [List.countP_append]
    rfl
  have hperm :
      ((sortedRowPairs Dists lib_i row_i).map Prod.fst).countP
        (fun d => decide (d ≤ debugThreshold)) = usableCount Dists lib_i row_i :=
    ((sortedRowPairs_perm Dists lib_i row_i).map Prod.fst).countP_eq _
  omega

theorem getNeighborsRow_fails (Dists : List (List ℚ)) (lib_i : List ℕ)
    (k row_i : ℕ) (hk : k ≤ lib_i.length) (hu : usableCount Dists lib_i row_i < k) :
    getNeighborsRow Dists lib_i k true row_i = .error .libraryTooSmall := by
  unfold getNeighborsRow
  rw [if_pos rfl, if_pos (kDist_any_big Dists lib_i k row_i hk hu)]

/-- C3, amended: when the Debug flag is enabled, neighbor search raises the
library-too-small RuntimeError whenever some prediction row has fewer than
k usable neighbors (candidate distances at or below the 1e29 threshold of
the check, in particular true distances as opposed to the 1e30 sentinel);
with Debug disabled the sentinel rows are returned silently (see the
counterexample theorem). -/
theorem getNeighbors_debug_libraryTooSmall (Dists : List (List ℚ))
    (lib_i : List ℕ) (k row_i : ℕ) (hk : k ≤ lib_i.length) (hr : row_i ∈ lib_i)
    (hu : usableCount Dists lib_i row_i < k) :
    getNeighbors Dists lib_i k true = .error .libraryTooSmall := by
  unfold getNeighbors
  rw [exceptMapList_error_of _ .libraryTooSmall lib_i
    ⟨row_i, hr, getNeighborsRow_fails Dists lib_i k row_i hk hu⟩
    (fun a _ e' he' => getNeighborsRow_error Dists lib_i k true a e' he')]

/-- Witness for C3 (amended): the 2-row library in which each row has a
single usable neighbor; with Debug on and k = 2 the search fails. -/
theorem getNeighbors_debug_libraryTooSmall_witness :
    (2 ≤ 2 ∧ 0 ∈ [0, 1] ∧ usableCount [[sentinel, 1], [1, sentinel]] [0, 1] 0 < 2) ∧
    getNeighbors [[sentinel, 1], [1, sentinel]] [0, 1] 2 true =
      .error .libraryTooSmall :=
  ⟨⟨by decide, by simp, by decide⟩,
    getNeighbors_debug_libraryTooSmall [[sentinel, 1], [1, sentinel]] [0, 1] 2 0
      (by decide) (by simp) (by decide)⟩

/-- Counterexample to C3 as stated: with the Debug flag off (the default:
no `-D` on the command line), a prediction row with only one usable
neighbor and k = 2 does not raise; the 1e30 sentinel row is returned
silently as a neighbor. -/
theorem getNeighbors_silent_sentinel_cex :
    usableCount [[sentinel, 1], [1, sentinel]] [0, 1] 0 < 2 ∧
    getNeighbors [[sentinel, 1], [1, sentinel]] [0, 1] 2 false =
      .ok ([[1, 0], [0, 1]], [[1, sentinel], [1, sentinel]]) :=
  ⟨by decide, rfl⟩

theorem filter_take_eq_take_filter {α : Type} (p : α → Bool) (l : List α) (k : ℕ) :
    (l.take k).filter p = (l.filter p).take ((l.take k).filter p).length := by
  have h : l.filter p = (l.take k).filter p ++ (l.drop k).filter p := by
    rw [← List.filter_append, List.take_append_drop]
  rw [h, List.take_left]

theorem sorted_filter_eq (Dists : List (List ℚ)) (lib_i : List ℕ) (row_i : ℕ) (d : ℚ) :
    (sortedRowPairs Dists lib_i row_i).filter (fun p => decide (p.1 = d)) =
    (rowPairs Dists lib_i row_i).filter (fun p => decide (p.1 = d)) := by
  haveI : IsAntisymm (ℚ × ℕ) (fun a b : ℚ × ℕ => a.2 < b.2) :=
    ⟨fun a b h h' => absurd (h.trans h') (lt_irrefl _)⟩
  apply List.eq_of_perm_of_sorted (r := fun a b : ℚ × ℕ => a.2 < b.2)
    ((sortedRowPairs_perm Dists lib_i row_i).filter _)
  · have hnd : (sortedRowPairs Dists lib_i row_i).Nodup :=
      (sortedRowPairs_perm Dists lib_i row_i).nodup_iff.mpr
        (rowPairs_nodup Dists lib_i row_i)
    have hcomb : List.Pairwise (fun a b => pairLe a b ∧ a ≠ b)
        (sortedRowPairs Dists lib_i row_i) :=
      (sortedRowPairs_sorted Dists lib_i row_i).and hnd
    have hfil := hcomb.filter (fun p : ℚ × ℕ => decide (p.1 = d))
    refine List.Pairwise.imp_of_mem ?_ hfil
    intro a b ha hb hr
    have had : a.1 = d := by simpa using (List.mem_filter.mp ha).2
    have hbd : b.1 = d := by simpa using (List.mem_filter.mp hb).2
    obtain ⟨hle, hne⟩ := hr
    rcases hle with hlt | ⟨heq, hle2⟩
    · rw [had, hbd] at hlt; exact absurd hlt (lt_irrefl d)
    · rcases Nat.lt_or_ge a.2 b.2 with h2 | h2
      · exact h2
      · have h22 : a.2 = b.2 := Nat.le_antisymm hle2 h2
        exact absurd (Prod.ext heq h22) hne
  · exact (rowPairs_pairwise_snd Dists lib_i row_i).filter _

theorem reportedTied_eq (Dists : List (List ℚ)) (lib_i : List ℕ) (k row_i : ℕ) (d : ℚ) :
    reportedTied (kNbr Dists lib_i k row_i) (kDist Dists lib_i k row_i) d =
    (((sortedRowPairs Dists lib_i row_i).take k).filter
      (fun p => decide (p.1 = d))).map Prod.snd := by
  unfold reportedTied kNbr kDist
  rw [← List.map_take, ← List.map_take, List.zip_map']
  rw [List.filter_map, List.map_map]
  have hpred : ((fun p : ℕ × ℚ => decide (p.2 = d)) ∘ fun p : ℚ × ℕ => (p.2, p.1)) =
      (fun p : ℚ × ℕ => decide (p.1 = d)) := rfl
  have hfun : (Prod.fst ∘ fun p : ℚ × ℕ => (p.2, p.1)) = (Prod.snd : ℚ × ℕ → ℕ) := rfl
  rw [hpred, hfun]

/-- C4: tie-breaking in neighbor search is by the smaller library-local
index.  For every prediction row j of a successful search and every
distance value d, the indices reported at distance d are sorted ascending,
and they are the initial (smallest) segment of the index-ordered list of
all candidates tied at distance d. -/
theorem getNeighbors_tie_ascending (Dists : List (List ℚ)) (lib_i : List ℕ)
    (k : ℕ) (dbg : Bool) (nbrs : List (List ℕ)) (dsts : List (List ℚ)) (j : ℕ)
    (h : getNeighbors Dists lib_i k dbg = .ok (nbrs, dsts)) (hj : j < lib_i.length)
    (d : ℚ) :
    List.Sorted (· < ·) (reportedTied (nbrs.getD j []) (dsts.getD j []) d) ∧
    reportedTied (nbrs.getD j []) (dsts.getD j []) d =
      (allTiedIndices Dists lib_i (lib_i.getD j 0) d).take
        (reportedTied (nbrs.getD j []) (dsts.getD j []) d).length := by
  obtain ⟨rows, hrows, hnb, hds⟩ := getNeighbors_ok_rows Dists lib_i k dbg nbrs dsts h
  have hlen : rows.length = lib_i.length := exceptMapList_ok_length _ _ _ hrows
  have hgd := exceptMapList_ok_getD _ _ _ hrows j hj 0 (([] : List ℕ), ([] : List ℚ))
  set r := lib_i.getD j 0 with hr
  set p := rows.getD j (([] : List ℕ), ([] : List ℚ)) with hp
  obtain ⟨h1, h2⟩ := getNeighborsRow_ok Dists lib_i k dbg r p.1 p.2 (by rw [hgd])
  have hjr : j < rows.length := by omega
  have hnbj : nbrs.getD j [] = p.1 := by
    rw [hnb, hp, List.getD_eq_getElem _ _ (by simpa [hlen] using hj),
      List.getD_eq_getElem _ _ hjr, List.getElem_map]
  have hdsj : dsts.getD j [] = p.2 := by
    rw [hds, hp, List.getD_eq_getElem _ _ (by simpa [hlen] using hj),
      List.getD_eq_getElem _ _ hjr, List.getElem_map]
  rw [hnbj, hdsj, h1, h2, reportedTied_eq]
  constructor
  · have hsub : (((sortedRowPairs Dists lib_i r).take k).filter
        (fun p => decide (p.1 = d))).Sublist
        ((sortedRowPairs Dists lib_i r).filter (fun p => decide (p.1 = d))) :=
      List.Sublist.filter _ (List.take_sublist _ _)
    have hpw : List.Pairwise (fun a b : ℚ × ℕ => a.2 < b.2)
        ((sortedRowPairs Dists lib_i r).filter (fun p => decide (p.1 = d))) := by
      rw [sorted_filter_eq]
      exact (rowPairs_pairwise_snd Dists lib_i r).filter _
    exact List.pairwise_map.mpr (hpw.sublist hsub)
  · unfold allTiedIndices
    rw [List.length_map, ← List.map_take]
    congr 1
    conv_lhs => rw [filter_take_eq_take_filter, sorted_filter_eq]

/-- Witness for C4: four candidates, three of them tied at distance 5,
k = 2: the reported tied indices are [1, 2], ascending, and they are the
first two of the tied index list [1, 2, 3]. -/
theorem getNeighbors_tie_ascending_witness :
    (getNeighbors [[sentinel, 5, 5, 5], [5, sentinel, 5, 5],
        [5, 5, sentinel, 5], [5, 5, 5, sentinel]] [0, 1, 2, 3] 2 false =
      .ok ([[1, 2], [0, 2], [0, 1], [0, 1]],
        [[5, 5], [5, 5], [5, 5], [5, 5]]) ∧ 0 < 4) ∧
    (List.Sorted (· < ·) (reportedTied [1, 2] [5, 5] 5) ∧
      reportedTied [1, 2] [5, 5] 5 =
        (allTiedIndices [[sentinel, 5, 5, 5], [5, sentinel, 5, 5],
          [5, 5, sentinel, 5], [5, 5, 5, sentinel]] [0, 1, 2, 3] 0 5).take
          (reportedTied [1, 2] [5, 5] 5).length) :=
  ⟨⟨rfl, by decide⟩,
    getNeighbors_tie_ascending [[sentinel, 5, 5, 5], [5, sentinel, 5, 5],
      [5, 5, sentinel, 5], [5, 5, 5, sentinel]] [0, 1, 2, 3] 2 false
      [[1, 2], [0, 2], [0, 1], [0, 1]] [[5, 5], [5, 5], [5, 5], [5, 5]] 0
      rfl (by decide) 5⟩

/-- Counterexample to C7 as stated: at N = 3 embedding rows, library size
L = 2 < N and subsample n = 5, the source selects [0, 1, 2] (the wrapped
block is clamped by min(L - (N - n), N_row)), while the claim's formula
[n, N) ++ [0, L - (N - n)) gives [0, 1, 2, 3], an index out of range.
Reachable: n runs to stop - 1 and stop may exceed N (e.g. libsize
[2, 6, 2] on 3 embedding rows). -/
theorem libContig_cex :
    libContig 3 2 5 = [0, 1, 2] ∧ libContigSpec 3 2 5 = [0, 1, 2, 3] ∧
    libContig 3 2 5 ≠ libContigSpec 3 2 5 := by decide

/-- C7, amended: the contiguous selection equals the claim's rule with the
wrapped block clamped to the data length: [n, n+L) when it fits
(n + L ≤ N), else [n, N) ++ [0, min(L - (N - n), N)); the full range
[0, N) when L ≥ N. -/
theorem libContig_clamped (N L n : ℕ) :
    libContig N L n = libContigSpecClamped N L n := by
  unfold libContig libContigSpecClamped
  split_ifs with h1 h2 h3 h4 <;> try rfl
  · omega
  · have hmin : min (n + L - N) N = 0 := by omega
    have hNn : N - n = L := by omega
    rw [hmin, hNn]
    simp

theorem getNeighbors_false (Dists : List (List ℚ)) (lib_i : List ℕ) (k : ℕ) :
    getNeighbors Dists lib_i k false = .ok (getNeighborsPure Dists lib_i k) := by
  unfold getNeighbors
  rw [exceptMapList_ok_of _ (fun r => (kNbr Dists lib_i k r, kDist Dists lib_i k r))
    lib_i (fun a _ => getNeighborsRow_false_ok Dists lib_i k a)]
  unfold getNeighborsPure
  simp [List.map_map, Function.comp]

theorem sampleStats_false (core : EDMCore) (Dists M : List (List ℚ)) (y : List ℚ)
    (k : ℕ) (lib_i : List ℕ) :
    sampleStats core Dists M y k false lib_i =
      .ok (pureSampleStat core Dists M y k lib_i) := by
  unfold sampleStats pureSampleStat
  rw [getNeighbors_false]

theorem sampleLib_snd (rl : Bool) (rand : ℕ → ℕ) (N L n c : ℕ) :
    (sampleLib rl rand N L n c).2 = c + (if rl then L else 0) := by
  cases rl <;> simp [sampleLib]

theorem sampleLib_fst_nth (rl : Bool) (rand : ℕ → ℕ) (N L n c0 : ℕ) :
    (sampleLib rl rand N L n (c0 + n * (if rl then L else 0))).1 =
      nthSampleLib rl rand N L c0 n := by
  cases rl <;> simp [sampleLib, nthSampleLib]

theorem runSamples_range (env : CCMEnv) (hdbg : env.debug = false) (L : ℕ) :
    ∀ (len a c : ℕ), runSamples env L (List.range' a len) c =
      .ok ((List.range' a len).map (fun n =>
        pureSampleStat env.core env.Dists env.M env.y env.k
          ((sampleLib env.randomLib env.rand env.N L n
            (c + (n - a) * (if env.randomLib then L else 0))).1)),
        c + len * (if env.randomLib then L else 0)) := by
  intro len
  induction len with
  | zero => intro a c; simp [runSamples]
  | succ m ih =>
    intro a c
    rw [List.range'_succ]
    unfold runSamples
    rw [hdbg, sampleStats_false, sampleLib_snd,
      ih (a + 1) (c + (if env.randomLib then L else 0))]
    have hhead :
        (sampleLib env.randomLib env.rand env.N L a
          (c + (a - a) * (if env.randomLib then L else 0))).1 =
        (sampleLib env.randomLib env.rand env.N L a c).1 := by
      simp
    have htail : ∀ n ∈ List.range' (a + 1) m,
        pureSampleStat env.core env.Dists env.M env.y env.k
          ((sampleLib env.randomLib env.rand env.N L n
            ((c + (if env.randomLib then L else 0)) +
              (n - (a + 1)) * (if env.randomLib then L else 0))).1) =
        pureSampleStat env.core env.Dists env.M env.y env.k
          ((sampleLib env.randomLib env.rand env.N L n
            (c + (n - a) * (if env.randomLib then L else 0))).1) := by
      intro n hn
      have hna : a + 1 ≤ n := (List.mem_range'_1.mp hn).1
      have harith : (c + (if env.randomLib then L else 0)) +
          (n - (a + 1)) * (if env.randomLib then L else 0) =
          c + (n - a) * (if env.randomLib then L else 0) := by
        have h1 : n - a = (n - (a + 1)) + 1 := by omega
        rw [h1, Nat.succ_mul]
        ring
      rw [harith]
    rw [List.map_cons, hhead, List.map_congr_left htail]
    have hcur : (c + (if env.randomLib then L else 0)) +
        m * (if env.randomLib then L else 0) =
        c + (m + 1) * (if env.randomLib then L else 0) := by
      rw [Nat.succ_mul]; ring
    rw [hcur]

theorem runSamples_range0 (env : CCMEnv) (hdbg : env.debug = false)
    (L maxS c : ℕ) :
    runSamples env L (List.range maxS) c =
      .ok ((List.range maxS).map (fun n =>
        pureSampleStat env.core env.Dists env.M env.y env.k
          (nthSampleLib env.randomLib env.rand env.N L c n)),
        c + maxS * (if env.randomLib then L else 0)) := by
  rw [List.range_eq_range', runSamples_range env hdbg L maxS 0 c]
  congr 1
  refine congrArg (fun v => (v, _)) (List.map_congr_left ?_)
  intro n _
  rw [Nat.sub_zero]
  cases hrl : env.randomLib
  · simp [sampleLib, nthSampleLib]
  · simp [sampleLib, nthSampleLib]

theorem runSizes_spec (env : CCMEnv) (hdbg : env.debug = false) (maxS : ℕ) :
    ∀ (Ls : List ℕ) (c : ℕ), ∃ res c2, runSizes env maxS Ls c = .ok (res, c2) ∧
      res.map Prod.fst = Ls ∧
      ∀ p ∈ res, ∃ c0, p.2 = statsMean ((List.range maxS).map (fun n =>
        pureSampleStat env.core env.Dists env.M env.y env.k
          (nthSampleLib env.randomLib env.rand env.N p.1 c0 n))) := by
  intro Ls
  induction Ls with
  | nil => intro c; exact ⟨[], c, rfl, rfl, by simp⟩
  | cons L Ls ih =>
    intro c
    obtain ⟨res, c2, hrun, hfst, hmean⟩ :=
      ih (c + maxS * (if env.randomLib then L else 0))
    refine ⟨(L, statsMean ((List.range maxS).map (fun n =>
      pureSampleStat env.core env.Dists env.M env.y env.k
        (nthSampleLib env.randomLib env.rand env.N L c n)))) :: res, c2, ?_, ?_, ?_⟩
    · unfold runSizes
      rw [runSamples_range0 env hdbg L maxS c]
      dsimp only
      rw [hrun]
    · simp [hfst]
    · intro p hp
      rcases List.mem_cons.mp hp with rfl | hp'
      · exact ⟨c, rfl⟩
      · exact hmean p hp'

theorem lt_ceil_div_iff (m s j : ℕ) (hs : 1 ≤ s) :
    j < (m + s - 1) / s ↔ j * s < m := by
  constructor
  · intro h
    have h1 : (j + 1) * s ≤ ((m + s - 1) / s) * s :=
      Nat.mul_le_mul_right s h
    have h2 : ((m + s - 1) / s) * s ≤ m + s - 1 := Nat.div_mul_le_self _ _
    rw [Nat.succ_mul] at h1
    omega
  · intro h
    have h1 : j + 1 ≤ (m + s - 1) / s := by
      rw [Nat.le_div_iff_mul_le hs, Nat.succ_mul]
      omega
    omega

theorem pyRange_mem (a b s : ℕ) (hs : 1 ≤ s) (x : ℕ) :
    x ∈ pyRange a b s ↔ ∃ j, x = a + j * s ∧ x < b := by
  unfold pyRange
  rw [List.mem_map]
  constructor
  · rintro ⟨j, hj, rfl⟩
    rw [List.mem_range] at hj
    have := (lt_ceil_div_iff (b - a) s j hs).mp hj
    exact ⟨j, rfl, by omega⟩
  · rintro ⟨j, rfl, hxb⟩
    exact ⟨j, List.mem_range.mpr ((lt_ceil_div_iff (b - a) s j hs).mpr (by omega)),
      rfl⟩

/-- C6: in a (non-Debug) CrossMap run, the recorded library sizes are
exactly the Python range(start, stop+1, step) — every size start + j*step
up to and including stop — and the value recorded for each size L is the
column-wise arithmetic mean, over the S = (subsample if randomLib else
stop) subsamples n = 0..S-1, of the per-subsample statistics
(rho, r, RMSE, MAE), each subsample evaluated on its selected library
(random draws from the shared RNG stream at some cursor c0, or the
contiguous selection). -/
theorem crossMap_schedule_means (core : EDMCore)
    (embedFn : ℕ → ℕ → List (List ℚ) × List ℚ) (col targ E : ℕ) (k_NN : ℤ)
    (start stop step subsample : ℕ) (randomLib : Bool) (rand : ℕ → ℕ)
    (hstep : 1 ≤ step) :
    ∃ res, crossMap core embedFn col targ E k_NN start stop step subsample
        randomLib false rand = .ok res ∧
      res.map Prod.fst = pyRange start (stop + 1) step ∧
      (∀ L, L ∈ res.map Prod.fst ↔ ∃ j, L = start + j * step ∧ L ≤ stop) ∧
      ∀ p ∈ res, ∃ c0, p.2 =
        statsMean ((List.range (if randomLib then subsample else stop)).map
          (fun n => pureSampleStat core
            (getDistances core.dist (embedFn col targ).1 E)
            (embedFn col targ).1 (embedFn col targ).2 (effectiveK k_NN E)
            (nthSampleLib randomLib rand (embedFn col targ).1.length p.1 c0 n))) := by
  obtain ⟨res, c2, hrun, hfst, hmean⟩ := runSizes_spec
    ⟨core, (embedFn col targ).1, (embedFn col targ).2,
      getDistances core.dist (embedFn col targ).1 E, effectiveK k_NN E,
      false, randomLib, rand⟩ rfl (if randomLib then subsample else stop)
    (pyRange start (stop + 1) step) 0
  refine ⟨res, ?_, hfst, ?_, ?_⟩
  · unfold crossMap
    rw [hrun]
  · intro L
    rw [hfst, pyRange_mem start (stop + 1) step hstep L]
    constructor
    · rintro ⟨j, rfl, hj⟩; exact ⟨j, rfl, by omega⟩
    · rintro ⟨j, rfl, hj⟩; exact ⟨j, rfl, by omega⟩
  · intro p hp
    exact hmean p hp

/-- Witness for C6: a two-row embedding, schedule [1, 2, 1], contiguous
subsampling. -/
theorem crossMap_schedule_means_witness :
    1 ≤ 1 ∧
    ∃ res, crossMap witCore witEmbed 0 1 1 (-1) 1 2 1 1 false false
        (fun i => i) = .ok res ∧
      res.map Prod.fst = pyRange 1 3 1 ∧
      (∀ L, L ∈ res.map Prod.fst ↔ ∃ j, L = 1 + j * 1 ∧ L ≤ 2) ∧
      ∀ p ∈ res, ∃ c0, p.2 = statsMean ((List.range 2).map
        (fun n => pureSampleStat witCore
          (getDistances witCore.dist (witEmbed 0 1).1 1)
          (witEmbed 0 1).1 (witEmbed 0 1).2 (effectiveK (-1) 1)
          (nthSampleLib false (fun i => i) (witEmbed 0 1).1.length p.1 c0 n))) :=
  ⟨le_refl 1, crossMap_schedule_means witCore witEmbed 0 1 1 (-1) 1 2 1 1
    false (fun i => i) (le_refl 1)⟩

/-- C8: CCM computes the two directions as two invocations of the same
CrossMap with column and target exchanged, both reading the RNG stream
from cursor 0 (the workers fork after seeding); hence running CCM with
the two columns swapped yields the same pair of per-library-size maps
with the two directions interchanged. -/
theorem ccm_swap_symmetry (core : EDMCore)
    (embedFn : ℕ → ℕ → List (List ℚ) × List ℚ) (colX targY E : ℕ) (k_NN : ℤ)
    (start stop step subsample : ℕ) (randomLib debug : Bool) (rand : ℕ → ℕ) :
    ccm core embedFn targY colX E k_NN start stop step subsample
        randomLib debug rand =
      ((ccm core embedFn colX targY E k_NN start stop step subsample
          randomLib debug rand).2,
        (ccm core embedFn colX targY E k_NN start stop step subsample
          randomLib debug rand).1) ∧
    (ccm core embedFn colX targY E k_NN start stop step subsample
        randomLib debug rand).1 =
      crossMap core embedFn colX targY E k_NN start stop step subsample
        randomLib debug rand ∧
    (ccm core embedFn colX targY E k_NN start stop step subsample
        randomLib debug rand).2 =
      crossMap core embedFn targY colX E k_NN start stop step subsample
        randomLib debug rand := by
  unfold ccm
  simp

theorem mem_combinations (k : ℕ) (l : List ℕ) (c : List ℕ) :
    c ∈ combinations k l ↔ c.Sublist l ∧ c.length = k := by
  induction l generalizing k c with
  | nil =>
    cases k with
    | zero =>
      simp only [combinations, List.mem_singleton]
      constructor
      · rintro rfl; exact ⟨List.Sublist.refl [], rfl⟩
      · rintro ⟨hs, hl⟩
        exact List.length_eq_zero.mp hl
    | succ k =>
      simp only [combinations]
      constructor
      · intro h; exact absurd h (List.not_mem_nil c)
      · rintro ⟨hs, hl⟩
        have := List.sublist_nil.mp hs
        subst this
        exact absurd hl.symm (Nat.succ_ne_zero k)
  | cons x xs ih =>
    cases k with
    | zero =>
      simp only [combinations, List.mem_singleton]
      constructor
      · rintro rfl; exact ⟨List.nil_sublist _, rfl⟩
      · rintro ⟨hs, hl⟩
        exact List.length_eq_zero.mp hl
    | succ k =>
      simp only [combinations, List.mem_append, List.mem_map]
      constructor
      · rintro (⟨c', hc', rfl⟩ | h)
        · obtain ⟨hs, hl⟩ := (ih k c').mp hc'
          exact ⟨hs.cons₂ x, by simp [hl]⟩
        · obtain ⟨hs, hl⟩ := (ih (k + 1) c).mp h
          exact ⟨hs.cons x, hl⟩
      · rintro ⟨hs, hl⟩
        cases hs with
        | cons _ h => exact Or.inr ((ih (k + 1) c).mpr ⟨h, hl⟩)
        | cons₂ _ h =>
          rename_i ys
          exact Or.inl ⟨ys, (ih k ys).mpr ⟨h, by simpa using hl⟩, rfl⟩

/-- C9: Multiview enumerates every E-element subset of the embedding
column indices {1 .. nVar*E} (as increasing index lists, i.e. length-E
subsequences of [1, ..., nVar*E]) and retains exactly those containing at
least one index x with x % E == 1; only these retained combinations reach
the in-sample ranking. -/
theorem multiview_retained_iff (nVar E : ℕ) (c : List ℕ) :
    c ∈ retainedCombos nVar E ↔
      c.Sublist (List.range' 1 (nVar * E)) ∧ c.length = E ∧
        ∃ x ∈ c, x % E = 1 := by
  unfold retainedCombos multiviewCombos
  rw [List.mem_filter, mem_combinations, List.any_eq_true]
  constructor
  · rintro ⟨⟨hs, hl⟩, hx⟩
    obtain ⟨x, hxc, hx1⟩ := hx
    exact ⟨hs, hl, x, hxc, by simpa using hx1⟩
  · rintro ⟨hs, hl, x, hxc, hx1⟩
    exact ⟨⟨hs, hl⟩, x, hxc, by simpa using hx1⟩

/-- C10: for E = 1 the unlagged-coordinate filter retains no combination
at all — x % 1 = 0 for every x, so the test x % 1 == 1 never holds —
although all nVar one-element subsets were enumerated; the subsequent
in-sample ranking therefore operates on an empty collection. -/
theorem multiview_E1_empty (nVar : ℕ) :
    retainedCombos nVar 1 = [] ∧ (multiviewCombos nVar 1).length = nVar ∧
      ∀ x : ℕ, x % 1 ≠ 1 := by
  refine ⟨?_, ?_, fun x => by simp [Nat.mod_one]⟩
  · unfold retainedCombos
    apply List.filter_eq_nil_iff.mpr
    intro c _
    simp [Nat.mod_one]
  · unfold multiviewCombos
    have hlen : ∀ l : List ℕ, (combinations 1 l).length = l.length := by
      intro l
      induction l with
      | nil => rfl
      | cons x xs ih => simp [combinations, ih]
    rw [hlen, List.length_range', Nat.mul_one]

end EDM
